import Mathlib

/-!
Verification of the expression-recognition and evaluation engine of a
command-line scientific calculator (`src/main.rs`).

The recognizer `parse_expression` is embedded as a deterministic scanner over
`List Char` that reproduces the two anchored regular expressions of the source

  binary pattern   : ^(-?\d*\.?\d+)\s*([\+\-\*/\^])\s*(-?\d*\.?\d+)$
  function pattern : ^(sqrt|sin|cos|tan|log|ln|abs|fact)\s*\(?(-?\d*\.?\d+)\)?$

together with lowercasing and the textual substitution of the constants
`pi` and `e`.  Because both patterns are anchored at both ends, a
backtracking regex engine matches them iff the deterministic maximal-munch
scanner below succeeds, with identical captures: any shorter match of a
number group `-?\d*\.?\d+` is necessarily followed by a digit or a dot
(every non-initial character of a number match is one of these), and such a
character can continue neither `\s*` nor the operator class, the optional
parentheses, nor the end anchor; similarly the whitespace runs and the
optional parentheses are forced.  The keyword alternation is deterministic
because no keyword is a prefix of another.

Numbers are modelled exactly: payloads of `Operation` are the rational
values of the decimal literals the recognizer captures (an idealization of
the `f64` values; IEEE rounding, signed zero, NaN and infinities are not
modelled).  The evaluator `calculate` returns real numbers, with the
transcendental functions of `f64` idealized by their exact counterparts
(`Real.sqrt`, `Real.sin`, `Real.logb 10`, `Real.rpow`, ...).

The character classes `\d` and `\s` of the `regex` crate are Unicode-aware
by default: `\d` is the Unicode class Nd of decimal digits.  We model `\d`
by the ASCII digits together with one representative non-ASCII Nd range
(the Arabic-Indic digits U+0660..U+0669); this is a sound under-
approximation of Nd that is exact on ASCII input and suffices to exhibit
the behaviours the claims are about.  `\s` is modelled by the ASCII
whitespace characters.  `f64::from_str` (ASCII-only) is modelled on the
plain decimal forms, the only forms the number groups can capture.
-/

/-- Model of the regex class `\d` restricted to ASCII: the decimal digits. -/
def isAsciiDigit (c : Char) : Bool := 48 ≤ c.toNat && c.toNat ≤ 57

/-- Model of the regex class `\d` (Unicode class Nd in the `regex` crate's
default Unicode mode): ASCII digits plus the representative non-ASCII Nd
range U+0660..U+0669 (Arabic-Indic digits).  Under-approximates Nd; exact
on ASCII characters. -/
def isNd (c : Char) : Bool := isAsciiDigit c || (1632 ≤ c.toNat && c.toNat ≤ 1641)

/-- Model of the regex class `\s`: the ASCII whitespace characters
(space, tab, line feed, carriage return, vertical tab, form feed). -/
def isWs (c : Char) : Bool :=
  c == ' ' || c == '\t' || c == '\n' || c == '\r' || c.toNat == 11 || c.toNat == 12

/-- The operator class `[\+\-\*/\^]` of the binary pattern. -/
def isOpChar (c : Char) : Bool :=
  c == '+' || c == '-' || c == '*' || c == '/' || c == '^'

/-- ASCII lowercasing, the fragment of Rust's `str::to_lowercase` relevant
to the patterns (Unicode lowercasing agrees with it on ASCII). -/
def asciiLower (c : Char) : Char :=
  if 65 ≤ c.toNat ∧ c.toNat ≤ 90 then Char.ofNat (c.toNat + 32) else c

/-- One step bound of `replaceAll`: replacement with fuel, structurally
recursive so that it reduces in the kernel.  Mirrors Rust's
`str::replace`: scan left to right, replace each non-overlapping
occurrence of `pat` by `repl`. -/
def replaceAllFuel (pat repl : List Char) : Nat → List Char → List Char
  | 0, s => s
  | _ + 1, [] => []
  | fuel + 1, c :: rest =>
    if pat ≠ [] ∧ pat.isPrefixOf (c :: rest) then
      repl ++ replaceAllFuel pat repl fuel (rest.drop (pat.length - 1))
    else
      c :: replaceAllFuel pat repl fuel rest

/-- Model of Rust's `str::replace`. -/
def replaceAll (pat repl s : List Char) : List Char :=
  replaceAllFuel pat repl s.length s

/-- The text substituted for `pi`: `std::f64::consts::PI.to_string()`. -/
def piVal : List Char := "3.141592653589793".data

/-- The text substituted for `e`: `std::f64::consts::E.to_string()`. -/
def eVal : List Char := "2.718281828459045".data

/-- The pattern for the constant pi. -/
def piKey : List Char := ['p', 'i']

/-- The pattern for the constant e. -/
def eKey : List Char := ['e']

/-- The two constant substitutions, in source order: first `pi`, then `e`. -/
def substConstants (s : List Char) : List Char :=
  replaceAll eKey eVal (replaceAll piKey piVal s)

/-- Normalization performed by `parse_expression` before pattern matching:
lowercase, then substitute `pi`, then substitute `e`. -/
def normalizeInput (s : List Char) : List Char :=
  substConstants (s.map asciiLower)

/-- Greedy match of the unsigned part `\d*\.?\d+` at the front of a string:
returns the matched literal and the remainder.  This is the maximal munch;
the file header explains why it coincides with the backtracking regex
semantics in the anchored patterns. -/
def scanNumCore (s : List Char) : Option (List Char × List Char) :=
  if (s.dropWhile isNd).head? = some '.' then
    if (s.dropWhile isNd).tail.takeWhile isNd = [] then
      if s.takeWhile isNd = [] then none
      else some (s.takeWhile isNd, s.dropWhile isNd)
    else
      some (s.takeWhile isNd ++ '.' :: (s.dropWhile isNd).tail.takeWhile isNd,
            (s.dropWhile isNd).tail.dropWhile isNd)
  else if s.takeWhile isNd = [] then none
  else some (s.takeWhile isNd, s.dropWhile isNd)

/-- Greedy match of a number group `-?\d*\.?\d+` at the front of a string. -/
def scanNum (s : List Char) : Option (List Char × List Char) :=
  if s.head? = some '-' then
    (scanNumCore s.tail).map fun p => ('-' :: p.1, p.2)
  else
    scanNumCore s

/-- Whole-string match of the binary pattern
`^(-?\d*\.?\d+)\s*([\+\-\*/\^])\s*(-?\d*\.?\d+)$`, returning the three
captures. -/
def scanBinary (s : List Char) : Option (List Char × Char × List Char) :=
  match scanNum s with
  | none => none
  | some (na, r1) =>
    match r1.dropWhile isWs with
    | [] => none
    | c :: r3 =>
      if isOpChar c then
        if scanNum (r3.dropWhile isWs) = some (r3.dropWhile isWs, []) then
          some (na, c, r3.dropWhile isWs)
        else none
      else none

/-- The function keywords, in the order of the regex alternation
`(sqrt|sin|cos|tan|log|ln|abs|fact)`. -/
def keywords : List (List Char) :=
  ["sqrt".data, "sin".data, "cos".data, "tan".data,
   "log".data, "ln".data, "abs".data, "fact".data]

/-- Whole-string match of the function pattern
`^(sqrt|sin|cos|tan|log|ln|abs|fact)\s*\(?(-?\d*\.?\d+)\)?$`, returning
the keyword and number captures. -/
def scanFunc (s : List Char) : Option (List Char × List Char) :=
  match keywords.find? (fun k => k.isPrefixOf s) with
  | none => none
  | some k =>
    match scanNum
        (if ((s.drop k.length).dropWhile isWs).head? = some '(' then
          ((s.drop k.length).dropWhile isWs).tail
        else (s.drop k.length).dropWhile isWs) with
    | some (nl, rest) => if rest = [] ∨ rest = [')'] then some (k, nl) else none
    | none => none

/-- The value of a run of ASCII digits. -/
def digitsToNat (l : List Char) : Nat :=
  l.foldl (fun n c => 10 * n + (c.toNat - 48)) 0

/-- Model of `f64::from_str` on an unsigned body.  Restricted to the plain
decimal forms `\d*\.?\d*` with ASCII digits: these are the only forms the
anchored number groups can capture (captures never contain letters, so the
exponent / `inf` / `nan` forms of `f64::from_str` are unreachable).
Non-ASCII digits are rejected, exactly as `f64::from_str` rejects them.
The value is idealized to the exact rational. -/
def fromStrPos (t : List Char) : Option ℚ :=
  if t.dropWhile isAsciiDigit = [] then
    if t.takeWhile isAsciiDigit = [] then none
    else some ((digitsToNat (t.takeWhile isAsciiDigit) : ℚ))
  else if (t.dropWhile isAsciiDigit).head? = some '.' then
    if (t.dropWhile isAsciiDigit).tail.dropWhile isAsciiDigit = [] ∧
        ¬(t.takeWhile isAsciiDigit = [] ∧ (t.dropWhile isAsciiDigit).tail.takeWhile isAsciiDigit = []) then
      some ((digitsToNat (t.takeWhile isAsciiDigit) : ℚ) +
        (digitsToNat ((t.dropWhile isAsciiDigit).tail.takeWhile isAsciiDigit) : ℚ) /
          10 ^ ((t.dropWhile isAsciiDigit).tail.takeWhile isAsciiDigit).length)
    else none
  else none

/-- Model of `f64::from_str` (see `fromStrPos`): an optional sign followed
by the unsigned body. -/
def fromStrF64 (s : List Char) : Option ℚ :=
  if s.head? = some '-' then (fromStrPos s.tail).map (fun q => -q)
  else if s.head? = some '+' then fromStrPos s.tail
  else fromStrPos s

/-- The `Operation` enum of the source, with the `f64` payloads idealized
to the exact rational values of the captured decimal literals. -/
inductive Operation where
  | Add : ℚ → ℚ → Operation
  | Subtract : ℚ → ℚ → Operation
  | Multiply : ℚ → ℚ → Operation
  | Divide : ℚ → ℚ → Operation
  | Power : ℚ → ℚ → Operation
  | SquareRoot : ℚ → Operation
  | Sine : ℚ → Operation
  | Cosine : ℚ → Operation
  | Tangent : ℚ → Operation
  | Logarithm : ℚ → Operation
  | NaturalLog : ℚ → Operation
  | Factorial : ℚ → Operation
  | Absolute : ℚ → Operation
  deriving DecidableEq

instance : DecidableEq (Except String Operation) := fun a b =>
  match a, b with
  | .ok x, .ok y =>
    if h : x = y then .isTrue (by rw [h]) else .isFalse (by simp [h])
  | .ok _, .error _ => .isFalse (by simp)
  | .error _, .ok _ => .isFalse (by simp)
  | .error x, .error y =>
    if h : x = y then .isTrue (by rw [h]) else .isFalse (by simp [h])

/-- Classification of a normalized input line: try the binary pattern, then
the function pattern, mirroring the match arms of `parse_expression`. -/
def classifyInput (n : List Char) : Except String Operation :=
  match scanBinary n with
  | some (na, c, nb) =>
    match fromStrF64 na with
    | none => .error "Invalid first number"
    | some a =>
      match fromStrF64 nb with
      | none => .error "Invalid second number"
      | some b =>
        if c = '+' then .ok (.Add a b)
        else if c = '-' then .ok (.Subtract a b)
        else if c = '*' then .ok (.Multiply a b)
        else if c = '/' then .ok (.Divide a b)
        else if c = '^' then .ok (.Power a b)
        else .error "Unknown operator"
  | none =>
    match scanFunc n with
    | some (kw, ns) =>
      match fromStrF64 ns with
      | none => .error "Invalid number"
      | some q =>
        if kw = "sqrt".data then .ok (.SquareRoot q)
        else if kw = "sin".data then .ok (.Sine q)
        else if kw = "cos".data then .ok (.Cosine q)
        else if kw = "tan".data then .ok (.Tangent q)
        else if kw = "log".data then .ok (.Logarithm q)
        else if kw = "ln".data then .ok (.NaturalLog q)
        else if kw = "abs".data then .ok (.Absolute q)
        else if kw = "fact".data then .ok (.Factorial q)
        else .error "Unknown function"
    | none => .error "Invalid expression format"

/-- The source's `parse_expression`: normalize (lowercase, substitute `pi`
then `e`) and classify against the two anchored patterns. -/
def parse_expression (s : List Char) : Except String Operation :=
  classifyInput (normalizeInput s)

/-- The recognizer contract of the spec: `recognize(line)` is
`parse_expression` on the line's characters. -/
def recognize (line : String) : Except String Operation :=
  parse_expression line.data

/-- Conversion of degrees to radians, the model of `f64::to_radians`. -/
noncomputable def toRadians (a : ℚ) : ℝ := (a : ℝ) * (Real.pi / 180)

/-- Model of `f64::powf`: the real power function. -/
noncomputable def fpow (a b : ℚ) : ℝ := (a : ℝ) ^ (b : ℝ)

/-- The iterative factorial accumulation `(1..=n).fold(1.0, |acc, x| acc * x)`,
idealized to exact arithmetic. -/
def foldFact (n : Nat) : Nat := (List.range' 1 n).foldl (fun acc x => acc * x) 1

/-- The source's `calculate`: evaluate an `Operation`, with the domain
guards of the source and the partial functions idealized over the reals. -/
noncomputable def calculate : Operation → Except String ℝ
  | .Add a b => .ok ((a : ℝ) + (b : ℝ))
  | .Subtract a b => .ok ((a : ℝ) - (b : ℝ))
  | .Multiply a b => .ok ((a : ℝ) * (b : ℝ))
  | .Divide a b =>
    if b = 0 then .error "Division by zero!" else .ok ((a : ℝ) / (b : ℝ))
  | .Power a b => .ok (fpow a b)
  | .SquareRoot a =>
    if a < 0 then .error "Cannot calculate square root of negative number!"
    else .ok (Real.sqrt (a : ℝ))
  | .Sine a => .ok (Real.sin (toRadians a))
  | .Cosine a => .ok (Real.cos (toRadians a))
  | .Tangent a => .ok (Real.tan (toRadians a))
  | .Logarithm a =>
    if a ≤ 0 then .error "Cannot calculate logarithm of non-positive number!"
    else .ok (Real.logb 10 (a : ℝ))
  | .NaturalLog a =>
    if a ≤ 0 then .error "Cannot calculate natural logarithm of non-positive number!"
    else .ok (Real.log (a : ℝ))
  | .Factorial a =>
    if a < 0 ∨ a.den ≠ 1 then .error "Factorial only defined for non-negative integers!"
    else .ok ((foldFact (min a.num.toNat (2 ^ 64 - 1)) : ℕ) : ℝ)
  | .Absolute a => .ok |(a : ℝ)|

/-- A signed decimal literal as the claims describe it: optional minus sign,
digits, optional dot with digits, with at least the `\d+` group nonempty.
`litStr sg d1 d2` is the literal text. -/
def litStr (sg d1 d2 : List Char) : List Char :=
  sg ++ d1 ++ (if d2 = [] then [] else '.' :: d2)

/-- The rational value of a signed decimal literal in the form of `litStr`. -/
def litQ (sg d1 d2 : List Char) : ℚ :=
  (if sg = [] then 1 else -1) *
    ((digitsToNat d1 : ℚ) + (digitsToNat d2 : ℚ) / 10 ^ d2.length)

/-- Claim-side mapping of an operator symbol to its `Operation` variant
(the spec's table restricted to the five binary operators). -/
def specBinOp (c : Char) (a b : ℚ) : Operation :=
  if c = '+' then .Add a b
  else if c = '-' then .Subtract a b
  else if c = '*' then .Multiply a b
  else if c = '/' then .Divide a b
  else .Power a b

/-- Claim-side direct arithmetic result of applying a binary operator. -/
noncomputable def specApplyBin (c : Char) (a b : ℚ) : ℝ :=
  if c = '+' then (a : ℝ) + (b : ℝ)
  else if c = '-' then (a : ℝ) - (b : ℝ)
  else if c = '*' then (a : ℝ) * (b : ℝ)
  else if c = '/' then (a : ℝ) / (b : ℝ)
  else fpow a b

/-- The rational value of the substituted text of π,
`3.141592653589793` (the shortest decimal representation of the `f64`
constant `std::f64::consts::PI`). -/
def piRat : ℚ := 3141592653589793 / 10 ^ 15

/-- Claim-side mapping of a function keyword to its `Operation` variant. -/
def specFunOp (kw : List Char) (q : ℚ) : Operation :=
  if kw = "sqrt".data then .SquareRoot q
  else if kw = "sin".data then .Sine q
  else if kw = "cos".data then .Cosine q
  else if kw = "tan".data then .Tangent q
  else if kw = "log".data then .Logarithm q
  else if kw = "ln".data then .NaturalLog q
  else if kw = "abs".data then .Absolute q
  else .Factorial q

/-- Characters that the normalization of `parse_expression` leaves alone:
not an ASCII uppercase letter (so lowercasing fixes them) and neither `p`
nor `e` (so neither constant substitution can start at them). -/
def CharSafe (c : Char) : Prop := asciiLower c = c ∧ c ≠ 'p' ∧ c ≠ 'e'

/-- A remainder that cannot extend a number match: its head (if any) is
neither a digit of `\d` nor a dot. -/
def NumBoundary (r : List Char) : Prop :=
  ∀ c, r.head? = some c → isNd c = false ∧ c ≠ '.'

/-! ### List and character helper lemmas -/

/-- A whitespace-free way of saying a run of `p`-characters followed by a
non-`p` head splits `takeWhile`/`dropWhile` exactly at the boundary. -/
theorem split_run (p : Char → Bool) (l r : List Char)
    (hl : ∀ c ∈ l, p c = true)
    (hr : ∀ c, r.head? = some c → p c = false) :
    (l ++ r).takeWhile p = l ∧ (l ++ r).dropWhile p = r := by
  induction l with
  | nil =>
    constructor
    · cases r with
      | nil => rfl
      | cons c t => simp [List.takeWhile_cons, hr c rfl]
    · cases r with
      | nil => rfl
      | cons c t => simp [List.dropWhile_cons, hr c rfl]
  | cons a l ih =>
    have ha : p a = true := hl a (by simp)
    have ih' := ih (fun c hc => hl c (by simp [hc]))
    refine ⟨?_, ?_⟩
    · simpa [List.takeWhile_cons, ha] using ih'.1
    · simpa [List.dropWhile_cons, ha] using ih'.2

theorem mem_of_mem_takeWhile (p : Char → Bool) :
    ∀ (l : List Char), ∀ c ∈ l.takeWhile p, c ∈ l := by
  intro l c h
  exact List.takeWhile_sublist p |>.subset h

theorem mem_of_mem_dropWhile (p : Char → Bool) :
    ∀ (l : List Char), ∀ c ∈ l.dropWhile p, c ∈ l := by
  intro l c h
  exact List.dropWhile_sublist p |>.subset h

theorem nil_isPrefixOf (l : List Char) : ([] : List Char).isPrefixOf l = true := by
  cases l <;> rfl

theorem isPrefixOf_app_self : ∀ (l t : List Char), l.isPrefixOf (l ++ t) = true := by
  intro l t
  induction l with
  | nil => exact nil_isPrefixOf t
  | cons a l ih => simp [List.isPrefixOf, ih]

/-- Two candidate matches at the start of the same string are comparable:
if `k` matches a prefix of `kw ++ tail`, then `k` is a prefix of `kw` or
`kw` is a prefix of `k`. -/
theorem isPrefixOf_app_cases : ∀ (k kw tail : List Char),
    k.isPrefixOf (kw ++ tail) = true → k.isPrefixOf kw = true ∨ kw.isPrefixOf k = true := by
  intro k
  induction k with
  | nil => intro kw tail _; left; exact nil_isPrefixOf kw
  | cons a as ih =>
    intro kw tail h
    cases kw with
    | nil => right; exact nil_isPrefixOf (a :: as)
    | cons b bs =>
      simp only [List.cons_append, List.isPrefixOf, Bool.and_eq_true, beq_iff_eq] at h
      rcases ih bs tail h.2 with h1 | h1
      · left; simp [List.isPrefixOf, h.1, h1]
      · right; simp [List.isPrefixOf, h.1, h1]

theorem key_no_overlap (k kw tail : List Char)
    (h1 : k.isPrefixOf kw = false) (h2 : kw.isPrefixOf k = false) :
    k.isPrefixOf (kw ++ tail) = false := by
  cases hk : k.isPrefixOf (kw ++ tail) with
  | false => rfl
  | true =>
    rcases isPrefixOf_app_cases k kw tail hk with h | h
    · rw [h1] at h; exact absurd h (by simp)
    · rw [h2] at h; exact absurd h (by simp)

theorem find?_first_of (l : List (List Char)) (kw tail : List Char) (hkw : kw ∈ l)
    (hno : ∀ k ∈ l, k ≠ kw → k.isPrefixOf (kw ++ tail) = false) :
    l.find? (fun k => k.isPrefixOf (kw ++ tail)) = some kw := by
  induction l with
  | nil => simp at hkw
  | cons a l ih =>
    by_cases hak : a = kw
    · subst hak
      simp [List.find?_cons, isPrefixOf_app_self]
    · have hfa : a.isPrefixOf (kw ++ tail) = false := hno a (by simp) hak
      have hmem : kw ∈ l := by
        rcases List.mem_cons.1 hkw with h | h
        · exact absurd h.symm hak
        · exact h
      simp [List.find?_cons, hfa, ih hmem (fun k hk => hno k (by simp [hk]))]

/-! ### Normalization lemmas -/

theorem map_asciiLower_id (s : List Char) (h : ∀ c ∈ s, asciiLower c = c) :
    s.map asciiLower = s := by
  induction s with
  | nil => rfl
  | cons a l ih =>
    simp only [List.map_cons, h a (by simp), List.cons.injEq, true_and]
    exact ih (fun c hc => h c (by simp [hc]))

theorem replaceAllFuel_id (pat repl : List Char) (p0 : Char) (hp : pat.head? = some p0) :
    ∀ (n : Nat) (s : List Char), p0 ∉ s → replaceAllFuel pat repl n s = s := by
  intro n
  induction n with
  | zero => intro s _; rfl
  | succ n ih =>
    intro s hs
    cases s with
    | nil => rfl
    | cons c rest =>
      have hc : c ≠ p0 := by
        intro h
        exact hs (by simp [h])
      have hpre : pat.isPrefixOf (c :: rest) = false := by
        cases pat with
        | nil => simp at hp
        | cons a t =>
          simp only [List.head?_cons, Option.some.injEq] at hp
          have hac : (a == c) = false := by
            rw [beq_eq_false_iff_ne]
            intro h
            apply hc
            rw [← h]
            exact hp
          simp [List.isPrefixOf, hac]
      rw [replaceAllFuel, if_neg (by simp [hpre])]
      have hrest : p0 ∉ rest := by
        intro h
        exact hs (by simp [h])
      exact congrArg (c :: ·) (ih rest hrest)

theorem replaceAll_id (pat repl s : List Char) (p0 : Char)
    (hp : pat.head? = some p0) (h : p0 ∉ s) : replaceAll pat repl s = s :=
  replaceAllFuel_id pat repl p0 hp s.length s h

theorem normalizeInput_id (s : List Char) (h : ∀ c ∈ s, CharSafe c) :
    normalizeInput s = s := by
  have hm : s.map asciiLower = s := map_asciiLower_id s (fun c hc => (h c hc).1)
  unfold normalizeInput substConstants
  rw [hm,
    replaceAll_id piKey piVal s 'p' rfl (fun hc => ((h _ hc).2.1) rfl),
    replaceAll_id eKey eVal s 'e' rfl (fun hc => ((h _ hc).2.2) rfl)]

theorem charSafe_of_digit (c : Char) (h : isAsciiDigit c = true) : CharSafe c := by
  simp only [isAsciiDigit, Bool.and_eq_true, decide_eq_true_eq] at h
  refine ⟨?_, ?_, ?_⟩
  · unfold asciiLower
    rw [if_neg (by omega)]
  · intro hc; subst hc; exact absurd h (by decide)
  · intro hc; subst hc; exact absurd h (by decide)

theorem ws_toNat_le (c : Char) (h : isWs c = true) : c.toNat ≤ 32 := by
  simp only [isWs, Bool.or_eq_true, beq_iff_eq] at h
  rcases h with ((((h | h) | h) | h) | h) | h
  · subst h; decide
  · subst h; decide
  · subst h; decide
  · subst h; decide
  · omega
  · omega

theorem charSafe_of_small (c : Char) (h : c.toNat < 65) : CharSafe c := by
  refine ⟨?_, ?_, ?_⟩
  · unfold asciiLower
    rw [if_neg (by omega)]
  · intro hc; subst hc; exact absurd h (by decide)
  · intro hc; subst hc; exact absurd h (by decide)

theorem charSafe_of_ws (c : Char) (h : isWs c = true) : CharSafe c :=
  charSafe_of_small c (by have := ws_toNat_le c h; omega)

theorem charSafe_of_op (c : Char) (h : isOpChar c = true) : CharSafe c := by
  simp only [isOpChar, Bool.or_eq_true, beq_iff_eq] at h
  rcases h with (((h | h) | h) | h) | h <;> subst h <;>
    exact ⟨by decide, by decide, by decide⟩

theorem litStr_chars (sg d1 d2 : List Char) (hsg : sg = [] ∨ sg = ['-'])
    (hd1 : ∀ c ∈ d1, isAsciiDigit c = true) (hd2 : ∀ c ∈ d2, isAsciiDigit c = true) :
    ∀ c ∈ litStr sg d1 d2, CharSafe c := by
  intro c hc
  unfold litStr at hc
  rcases List.mem_append.1 hc with hc | hc
  · rcases List.mem_append.1 hc with hc | hc
    · rcases hsg with rfl | rfl
      · simp at hc
      · have : c = '-' := by simpa using hc
        subst this
        exact charSafe_of_small _ (by decide)
    · exact charSafe_of_digit c (hd1 c hc)
  · by_cases h2 : d2 = []
    · simp [h2] at hc
    · rw [if_neg h2] at hc
      rcases List.mem_cons.1 hc with rfl | hc
      · exact charSafe_of_small _ (by decide)
      · exact charSafe_of_digit c (hd2 c hc)

/-! ### Character class facts -/

theorem isNd_of_digit (c : Char) (h : isAsciiDigit c = true) : isNd c = true := by
  simp [isNd, h]

theorem digit_not_special (c : Char) (h : isAsciiDigit c = true) :
    c ≠ '-' ∧ c ≠ '.' ∧ c ≠ '+' ∧ isWs c = false := by
  have hb : 48 ≤ c.toNat ∧ c.toNat ≤ 57 := by
    simpa [isAsciiDigit] using h
  refine ⟨?_, ?_, ?_, ?_⟩
  · intro hc; subst hc; exact absurd hb (by decide)
  · intro hc; subst hc; exact absurd hb (by decide)
  · intro hc; subst hc; exact absurd hb (by decide)
  · cases hw : isWs c with
    | false => rfl
    | true => have := ws_toNat_le c hw; omega

theorem ws_not_numchar (c : Char) (h : isWs c = true) : isNd c = false ∧ c ≠ '.' := by
  have hle := ws_toNat_le c h
  constructor
  · cases hnd : isNd c with
    | false => rfl
    | true =>
      exfalso
      simp only [isNd, isAsciiDigit, Bool.or_eq_true, Bool.and_eq_true,
        decide_eq_true_eq] at hnd
      rcases hnd with h1 | h1 <;> omega
  · intro hc; subst hc; exact absurd hle (by decide)

theorem op_not_numchar (c : Char) (h : isOpChar c = true) :
    isNd c = false ∧ c ≠ '.' ∧ isWs c = false := by
  simp only [isOpChar, Bool.or_eq_true, beq_iff_eq] at h
  rcases h with (((h | h) | h) | h) | h <;> subst h <;>
    exact ⟨by decide, by decide, by decide⟩

/-! ### Scanner lemmas: the number groups capture exactly the literals -/

theorem numBoundary_nil : NumBoundary [] := by
  intro c hc; simp at hc

theorem numBoundary_not_dot (r : List Char) (h : NumBoundary r) :
    ¬(r.head? = some '.') := by
  intro hc
  exact (h '.' hc).2 rfl

theorem numBoundary_nd_false (r : List Char) (h : NumBoundary r) :
    ∀ c, r.head? = some c → isNd c = false := fun c hc => (h c hc).1

theorem scanNumCore_int (d1 rest : List Char)
    (hd1 : ∀ c ∈ d1, isAsciiDigit c = true)
    (hne : d1 ≠ [])
    (hrest : NumBoundary rest) :
    scanNumCore (d1 ++ rest) = some (d1, rest) := by
  have hd1' : ∀ c ∈ d1, isNd c = true := fun c hc => isNd_of_digit c (hd1 c hc)
  have hsplit := split_run isNd d1 rest hd1' (numBoundary_nd_false rest hrest)
  unfold scanNumCore
  rw [hsplit.1, hsplit.2, if_neg (numBoundary_not_dot rest hrest), if_neg hne]

theorem scanNumCore_frac (d1 d2 rest : List Char)
    (hd1 : ∀ c ∈ d1, isAsciiDigit c = true)
    (hd2 : ∀ c ∈ d2, isAsciiDigit c = true)
    (h2 : d2 ≠ [])
    (hrest : NumBoundary rest) :
    scanNumCore ((d1 ++ '.' :: d2) ++ rest) = some (d1 ++ '.' :: d2, rest) := by
  have hd1' : ∀ c ∈ d1, isNd c = true := fun c hc => isNd_of_digit c (hd1 c hc)
  have hd2' : ∀ c ∈ d2, isNd c = true := fun c hc => isNd_of_digit c (hd2 c hc)
  have hs : (d1 ++ '.' :: d2) ++ rest = d1 ++ ('.' :: (d2 ++ rest)) := by simp
  have hdot : ∀ c, ('.' :: (d2 ++ rest)).head? = some c → isNd c = false := by
    intro c hc
    simp only [List.head?_cons, Option.some.injEq] at hc
    rw [← hc]
    decide
  have hsplit1 := split_run isNd d1 ('.' :: (d2 ++ rest)) hd1' hdot
  have hsplit2 := split_run isNd d2 rest hd2' (numBoundary_nd_false rest hrest)
  rw [hs]
  unfold scanNumCore
  rw [hsplit1.1, hsplit1.2]
  simp only [List.head?_cons, List.tail_cons, if_pos rfl]
  rw [hsplit2.1, hsplit2.2]
  simp [h2]

theorem litStr_int (d1 : List Char) : litStr [] d1 [] = d1 := by
  simp [litStr]

theorem litStr_frac (d1 d2 : List Char) (h2 : d2 ≠ []) :
    litStr [] d1 d2 = d1 ++ '.' :: d2 := by
  simp [litStr, if_neg h2]

theorem litStr_neg (sg d1 d2 : List Char) (hsg : sg = ['-']) :
    litStr sg d1 d2 = '-' :: litStr [] d1 d2 := by
  subst hsg
  simp [litStr]

theorem scanNumCore_lit (d1 d2 rest : List Char)
    (hd1 : ∀ c ∈ d1, isAsciiDigit c = true)
    (hd2 : ∀ c ∈ d2, isAsciiDigit c = true)
    (hsh : d2 = [] → d1 ≠ [])
    (hrest : NumBoundary rest) :
    scanNumCore (litStr [] d1 d2 ++ rest) = some (litStr [] d1 d2, rest) := by
  by_cases h2 : d2 = []
  · rw [h2, litStr_int]
    exact scanNumCore_int d1 rest hd1 (hsh h2) hrest
  · rw [litStr_frac d1 d2 h2]
    exact scanNumCore_frac d1 d2 rest hd1 hd2 h2 hrest

theorem litStr_head (sg d1 d2 : List Char) (hsg : sg = [] ∨ sg = ['-'])
    (hsh : d2 = [] → d1 ≠ []) :
    ∃ c t, litStr sg d1 d2 = c :: t ∧
      (c = '-' ∧ sg = ['-'] ∨ sg = [] ∧ (c ∈ d1 ∨ c = '.')) := by
  rcases hsg with rfl | rfl
  · cases hd : d1 with
    | nil =>
      have h2 : d2 ≠ [] := fun h => (hsh h) hd
      refine ⟨'.', d2, ?_, Or.inr ⟨rfl, Or.inr rfl⟩⟩
      rw [litStr_frac [] d2 h2]
      simp
    | cons a t =>
      refine ⟨a, t ++ (if d2 = [] then [] else '.' :: d2), ?_, Or.inr ⟨rfl, Or.inl (by simp)⟩⟩
      simp [litStr]
  · exact ⟨'-', litStr [] d1 d2, by simp [litStr], Or.inl ⟨rfl, rfl⟩⟩

theorem scanNum_lit (sg d1 d2 rest : List Char)
    (hsg : sg = [] ∨ sg = ['-'])
    (hd1 : ∀ c ∈ d1, isAsciiDigit c = true)
    (hd2 : ∀ c ∈ d2, isAsciiDigit c = true)
    (hsh : d2 = [] → d1 ≠ [])
    (hrest : NumBoundary rest) :
    scanNum (litStr sg d1 d2 ++ rest) = some (litStr sg d1 d2, rest) := by
  have hcore := scanNumCore_lit d1 d2 rest hd1 hd2 hsh hrest
  rcases hsg with rfl | rfl
  · have hh : ¬((litStr [] d1 d2 ++ rest).head? = some '-') := by
      obtain ⟨c, t, heq, hcase⟩ := litStr_head [] d1 d2 (Or.inl rfl) hsh
      rw [heq]
      simp only [List.cons_append, List.head?_cons, Option.some.injEq]
      intro hcon
      rcases hcase with ⟨_, hcon2⟩ | ⟨_, hc⟩
      · simp at hcon2
      · rcases hc with hc | hc
        · exact (digit_not_special c (hd1 c hc)).1 hcon
        · rw [hc] at hcon; simp at hcon
    unfold scanNum
    rw [if_neg hh, hcore]
  · rw [litStr_neg ['-'] d1 d2 rfl]
    unfold scanNum
    simp only [List.cons_append, List.head?_cons, List.tail_cons]
    simp [hcore]

theorem litStr_head_not_ws (sg d1 d2 : List Char) (hsg : sg = [] ∨ sg = ['-'])
    (hd1 : ∀ c ∈ d1, isAsciiDigit c = true) (hsh : d2 = [] → d1 ≠ []) :
    ∀ c, (litStr sg d1 d2).head? = some c → isWs c = false := by
  intro c hc
  obtain ⟨c', t, heq, hcase⟩ := litStr_head sg d1 d2 hsg hsh
  rw [heq] at hc
  simp only [List.head?_cons, Option.some.injEq] at hc
  rw [← hc]
  rcases hcase with ⟨hcm, _⟩ | ⟨_, hcm⟩
  · rw [hcm]; decide
  · rcases hcm with hcm | hcm
    · exact (digit_not_special c' (hd1 c' hcm)).2.2.2
    · rw [hcm]; decide

theorem scanBinary_lit (sg1 d11 d21 sg2 d12 d22 w1 w2 : List Char) (c : Char)
    (hsg1 : sg1 = [] ∨ sg1 = ['-'])
    (hd11 : ∀ x ∈ d11, isAsciiDigit x = true)
    (hd21 : ∀ x ∈ d21, isAsciiDigit x = true)
    (hsh1 : d21 = [] → d11 ≠ [])
    (hsg2 : sg2 = [] ∨ sg2 = ['-'])
    (hd12 : ∀ x ∈ d12, isAsciiDigit x = true)
    (hd22 : ∀ x ∈ d22, isAsciiDigit x = true)
    (hsh2 : d22 = [] → d12 ≠ [])
    (hw1 : ∀ x ∈ w1, isWs x = true)
    (hw2 : ∀ x ∈ w2, isWs x = true)
    (hop : isOpChar c = true) :
    scanBinary (litStr sg1 d11 d21 ++ (w1 ++ (c :: (w2 ++ litStr sg2 d12 d22))))
      = some (litStr sg1 d11 d21, c, litStr sg2 d12 d22) := by
  have hbound : NumBoundary (w1 ++ (c :: (w2 ++ litStr sg2 d12 d22))) := by
    intro x hx
    cases hw : w1 with
    | nil =>
      rw [hw] at hx
      simp only [List.nil_append, List.head?_cons, Option.some.injEq] at hx
      rw [← hx]
      exact ⟨(op_not_numchar c hop).1, (op_not_numchar c hop).2.1⟩
    | cons a t =>
      rw [hw] at hx
      simp only [List.cons_append, List.head?_cons, Option.some.injEq] at hx
      rw [← hx]
      have ha : isWs a = true := hw1 a (by rw [hw]; simp)
      exact ws_not_numchar a ha
  have hna := scanNum_lit sg1 d11 d21 (w1 ++ (c :: (w2 ++ litStr sg2 d12 d22)))
    hsg1 hd11 hd21 hsh1 hbound
  have hws1 := split_run isWs w1 (c :: (w2 ++ litStr sg2 d12 d22)) hw1
    (by
      intro x hx
      simp only [List.head?_cons, Option.some.injEq] at hx
      rw [← hx]
      exact (op_not_numchar c hop).2.2)
  have hws2 := split_run isWs w2 (litStr sg2 d12 d22) hw2
    (litStr_head_not_ws sg2 d12 d22 hsg2 hd12 hsh2)
  have hnb := scanNum_lit sg2 d12 d22 [] hsg2 hd12 hd22 hsh2 numBoundary_nil
  rw [List.append_nil] at hnb
  unfold scanBinary
  rw [hna]
  simp only [hws1.2]
  rw [if_pos hop]
  simp only [hws2.2]
  rw [if_pos hnb]

/-! ### Value lemmas: parsing the captured literals -/

theorem fromStrPos_int (d1 : List Char)
    (hd1 : ∀ c ∈ d1, isAsciiDigit c = true) (hne : d1 ≠ []) :
    fromStrPos d1 = some ((digitsToNat d1 : ℚ)) := by
  have hsplit := split_run isAsciiDigit d1 [] hd1 (by intro c hc; simp at hc)
  rw [List.append_nil] at hsplit
  unfold fromStrPos
  rw [hsplit.1, hsplit.2, if_pos rfl, if_neg hne]

theorem fromStrPos_frac (d1 d2 : List Char)
    (hd1 : ∀ c ∈ d1, isAsciiDigit c = true)
    (hd2 : ∀ c ∈ d2, isAsciiDigit c = true)
    (h2 : d2 ≠ []) :
    fromStrPos (d1 ++ '.' :: d2)
      = some ((digitsToNat d1 : ℚ) + (digitsToNat d2 : ℚ) / 10 ^ d2.length) := by
  have hdot : ∀ c, ('.' :: d2).head? = some c → isAsciiDigit c = false := by
    intro c hc
    simp only [List.head?_cons, Option.some.injEq] at hc
    rw [← hc]
    decide
  have hsplit1 := split_run isAsciiDigit d1 ('.' :: d2) hd1 hdot
  have hsplit2 := split_run isAsciiDigit d2 [] hd2 (by intro c hc; simp at hc)
  rw [List.append_nil] at hsplit2
  unfold fromStrPos
  rw [hsplit1.1, hsplit1.2]
  simp only [List.head?_cons, List.tail_cons, List.cons_ne_self]
  rw [hsplit2.1, hsplit2.2]
  simp [h2]

theorem litStr_pos_head_sign (d1 d2 : List Char)
    (hd1 : ∀ c ∈ d1, isAsciiDigit c = true)
    (hsh : d2 = [] → d1 ≠ []) :
    ∀ x, (litStr [] d1 d2).head? = some x → x ≠ '-' ∧ x ≠ '+' := by
  intro x hx
  obtain ⟨c, t, heq, hcase⟩ := litStr_head [] d1 d2 (Or.inl rfl) hsh
  rw [heq] at hx
  simp only [List.head?_cons, Option.some.injEq] at hx
  rw [← hx]
  rcases hcase with ⟨_, hcon⟩ | ⟨_, hc⟩
  · simp at hcon
  · rcases hc with hc | hc
    · exact ⟨(digit_not_special c (hd1 c hc)).1, (digit_not_special c (hd1 c hc)).2.2.1⟩
    · rw [hc]; exact ⟨by decide, by decide⟩

theorem fromStrPos_lit (d1 d2 : List Char)
    (hd1 : ∀ c ∈ d1, isAsciiDigit c = true)
    (hd2 : ∀ c ∈ d2, isAsciiDigit c = true)
    (hsh : d2 = [] → d1 ≠ []) :
    fromStrPos (litStr [] d1 d2)
      = some ((digitsToNat d1 : ℚ) + (digitsToNat d2 : ℚ) / 10 ^ d2.length) := by
  by_cases h2 : d2 = []
  · rw [h2, litStr_int, fromStrPos_int d1 hd1 (hsh h2)]
    simp [digitsToNat]
  · rw [litStr_frac d1 d2 h2]
    exact fromStrPos_frac d1 d2 hd1 hd2 h2

theorem fromStrF64_lit (sg d1 d2 : List Char)
    (hsg : sg = [] ∨ sg = ['-'])
    (hd1 : ∀ c ∈ d1, isAsciiDigit c = true)
    (hd2 : ∀ c ∈ d2, isAsciiDigit c = true)
    (hsh : d2 = [] → d1 ≠ []) :
    fromStrF64 (litStr sg d1 d2) = some (litQ sg d1 d2) := by
  have hpos := fromStrPos_lit d1 d2 hd1 hd2 hsh
  rcases hsg with rfl | rfl
  · have hne : ∀ x, (litStr [] d1 d2).head? = some x → x ≠ '-' ∧ x ≠ '+' :=
      litStr_pos_head_sign d1 d2 hd1 hsh
    have h1 : ¬((litStr [] d1 d2).head? = some '-') := by
      intro h
      exact (hne '-' h).1 rfl
    have h2 : ¬((litStr [] d1 d2).head? = some '+') := by
      intro h
      exact (hne '+' h).2 rfl
    unfold fromStrF64
    rw [if_neg h1, if_neg h2, hpos]
    simp [litQ]
  · rw [litStr_neg ['-'] d1 d2 rfl]
    unfold fromStrF64
    simp [hpos, litQ]

/-! ### The classification helpers -/

theorem classifyInput_binary (sg1 d11 d21 sg2 d12 d22 w1 w2 : List Char) (c : Char)
    (hsg1 : sg1 = [] ∨ sg1 = ['-'])
    (hd11 : ∀ x ∈ d11, isAsciiDigit x = true)
    (hd21 : ∀ x ∈ d21, isAsciiDigit x = true)
    (hsh1 : d21 = [] → d11 ≠ [])
    (hsg2 : sg2 = [] ∨ sg2 = ['-'])
    (hd12 : ∀ x ∈ d12, isAsciiDigit x = true)
    (hd22 : ∀ x ∈ d22, isAsciiDigit x = true)
    (hsh2 : d22 = [] → d12 ≠ [])
    (hw1 : ∀ x ∈ w1, isWs x = true)
    (hw2 : ∀ x ∈ w2, isWs x = true)
    (hop : isOpChar c = true) :
    classifyInput (litStr sg1 d11 d21 ++ (w1 ++ (c :: (w2 ++ litStr sg2 d12 d22))))
      = .ok (specBinOp c (litQ sg1 d11 d21) (litQ sg2 d12 d22)) := by
  have hscan := scanBinary_lit sg1 d11 d21 sg2 d12 d22 w1 w2 c
    hsg1 hd11 hd21 hsh1 hsg2 hd12 hd22 hsh2 hw1 hw2 hop
  have hf1 := fromStrF64_lit sg1 d11 d21 hsg1 hd11 hd21 hsh1
  have hf2 := fromStrF64_lit sg2 d12 d22 hsg2 hd12 hd22 hsh2
  have hc5 : (((c = '+' ∨ c = '-') ∨ c = '*') ∨ c = '/') ∨ c = '^' := by
    simpa [isOpChar] using hop
  unfold classifyInput
  rw [hscan]
  simp only [hf1, hf2]
  rcases hc5 with (((rfl | rfl) | rfl) | rfl) | rfl <;> simp [specBinOp]

/-! ### Claim theorems -/

/-- C1: for every valid binary input string of the form `a op b` — a signed
decimal literal, one of the operator symbols `+ - * / ^` surrounded by
optional whitespace, and a second signed decimal literal, which together
match the whole-string binary pattern — `recognize` succeeds with the
`Operation` variant corresponding to `op` carrying the two parsed numbers,
and `evaluate` on that `Operation` returns the direct arithmetic result of
applying `op` to the two numbers, under the precondition for `Divide` that
the second number is nonzero. -/
theorem recognize_binary_correct
    (sg1 d11 d21 sg2 d12 d22 w1 w2 : List Char) (c : Char)
    (hsg1 : sg1 = [] ∨ sg1 = ['-'])
    (hd11 : ∀ x ∈ d11, isAsciiDigit x = true)
    (hd21 : ∀ x ∈ d21, isAsciiDigit x = true)
    (hsh1 : d21 = [] → d11 ≠ [])
    (hsg2 : sg2 = [] ∨ sg2 = ['-'])
    (hd12 : ∀ x ∈ d12, isAsciiDigit x = true)
    (hd22 : ∀ x ∈ d22, isAsciiDigit x = true)
    (hsh2 : d22 = [] → d12 ≠ [])
    (hw1 : ∀ x ∈ w1, isWs x = true)
    (hw2 : ∀ x ∈ w2, isWs x = true)
    (hop : isOpChar c = true)
    (hdiv : c = '/' → litQ sg2 d12 d22 ≠ 0) :
    parse_expression (litStr sg1 d11 d21 ++ (w1 ++ (c :: (w2 ++ litStr sg2 d12 d22))))
        = .ok (specBinOp c (litQ sg1 d11 d21) (litQ sg2 d12 d22))
      ∧ calculate (specBinOp c (litQ sg1 d11 d21) (litQ sg2 d12 d22))
        = .ok (specApplyBin c (litQ sg1 d11 d21) (litQ sg2 d12 d22)) := by
  have hsafe : ∀ x ∈ litStr sg1 d11 d21 ++ (w1 ++ (c :: (w2 ++ litStr sg2 d12 d22))),
      CharSafe x := by
    intro x hx
    rcases List.mem_append.1 hx with hx | hx
    · exact litStr_chars sg1 d11 d21 hsg1 hd11 hd21 x hx
    · rcases List.mem_append.1 hx with hx | hx
      · exact charSafe_of_ws x (hw1 x hx)
      · rcases List.mem_cons.1 hx with rfl | hx
        · exact charSafe_of_op _ hop
        · rcases List.mem_append.1 hx with hx | hx
          · exact charSafe_of_ws x (hw2 x hx)
          · exact litStr_chars sg2 d12 d22 hsg2 hd12 hd22 x hx
  constructor
  · show classifyInput (normalizeInput _) = _
    rw [normalizeInput_id _ hsafe]
    exact classifyInput_binary sg1 d11 d21 sg2 d12 d22 w1 w2 c
      hsg1 hd11 hd21 hsh1 hsg2 hd12 hd22 hsh2 hw1 hw2 hop
  · have hc5 : (((c = '+' ∨ c = '-') ∨ c = '*') ∨ c = '/') ∨ c = '^' := by
      simpa [isOpChar] using hop
    rcases hc5 with (((rfl | rfl) | rfl) | rfl) | rfl
    · simp [specBinOp, specApplyBin, calculate]
    · simp [specBinOp, specApplyBin, calculate]
    · simp [specBinOp, specApplyBin, calculate]
    · have hb := hdiv rfl
      simp [specBinOp, specApplyBin, calculate, hb]
    · simp [specBinOp, specApplyBin, calculate]

/-- Witness for C1 at the spec's example inputs `2 + 2` and `10 / 4`. -/
theorem recognize_binary_correct_witness :
    recognize "2 + 2" = .ok (.Add 2 2) ∧ calculate (.Add 2 2) = .ok 4 ∧
    recognize "10 / 4" = .ok (.Divide 10 4) ∧ calculate (.Divide 10 4) = .ok 2.5 := by
  have hq2 : litQ [] ['2'] [] = 2 := by
    simp [litQ, show digitsToNat ['2'] = 2 from by decide, show digitsToNat [] = 0 from rfl]
  have hq10 : litQ [] ['1', '0'] [] = 10 := by
    simp [litQ, show digitsToNat ['1', '0'] = 10 from by decide, show digitsToNat [] = 0 from rfl]
  have hq4 : litQ [] ['4'] [] = 4 := by
    simp [litQ, show digitsToNat ['4'] = 4 from by decide, show digitsToNat [] = 0 from rfl]
  have h1 := recognize_binary_correct [] ['2'] [] [] ['2'] [] [' '] [' '] '+'
    (Or.inl rfl) (by decide) (by decide) (by decide)
    (Or.inl rfl) (by decide) (by decide) (by decide)
    (by decide) (by decide) (by decide)
    (fun h => absurd h (by decide))
  have h2 := recognize_binary_correct [] ['1', '0'] [] [] ['4'] [] [' '] [' '] '/'
    (Or.inl rfl) (by decide) (by decide) (by decide)
    (Or.inl rfl) (by decide) (by decide) (by decide)
    (by decide) (by decide) (by decide)
    (fun _ => by rw [hq4]; norm_num)
  rw [hq2] at h1
  rw [hq10, hq4] at h2
  refine ⟨?_, ?_, ?_, ?_⟩
  · unfold recognize
    rw [show ("2 + 2").data
        = litStr [] ['2'] [] ++ ([' '] ++ ('+' :: ([' '] ++ litStr [] ['2'] [])))
      from by decide]
    rw [h1.1]
    simp [specBinOp]
  · simp [calculate]
    norm_num
  · unfold recognize
    rw [show ("10 / 4").data
        = litStr [] ['1', '0'] [] ++ ([' '] ++ ('/' :: ([' '] ++ litStr [] ['4'] [])))
      from by decide]
    rw [h2.1]
    simp [specBinOp]
  · simp [calculate]
    norm_num

/-! ### Function pattern helpers -/

theorem scanNum_none_head (x : Char) (t : List Char)
    (hx : isNd x = false) (hdot : x ≠ '.') (hdash : x ≠ '-') :
    scanNum (x :: t) = none := by
  unfold scanNum
  rw [if_neg (show ¬((x :: t).head? = some '-') by simp [hdash])]
  unfold scanNumCore
  have ht : (x :: t).takeWhile isNd = [] := by simp [List.takeWhile_cons, hx]
  have hd : (x :: t).dropWhile isNd = x :: t := by simp [List.dropWhile_cons, hx]
  rw [ht, hd]
  simp [hdot]

theorem scanBinary_none_of_scanNum (s : List Char) (h : scanNum s = none) :
    scanBinary s = none := by
  unfold scanBinary
  rw [h]

theorem litStr_head_ne (sg d1 d2 : List Char) (hsg : sg = [] ∨ sg = ['-'])
    (hd1 : ∀ c ∈ d1, isAsciiDigit c = true) (hsh : d2 = [] → d1 ≠ [])
    (ch : Char) (hch : isAsciiDigit ch = false) (hd : ch ≠ '-') (hdot : ch ≠ '.') :
    ¬((litStr sg d1 d2).head? = some ch) := by
  intro hx
  obtain ⟨c, t, heq, hcase⟩ := litStr_head sg d1 d2 hsg hsh
  rw [heq] at hx
  simp only [List.head?_cons, Option.some.injEq] at hx
  rcases hcase with ⟨hcm, _⟩ | ⟨_, hcm⟩
  · rw [hcm] at hx; exact hd hx.symm
  · rcases hcm with hcm | hcm
    · rw [hx] at hcm
      rw [hd1 ch hcm] at hch
      exact absurd hch (by simp)
    · rw [hcm] at hx; exact hdot hx.symm

theorem keyword_head (kw : List Char) (h : kw ∈ keywords) :
    kw ≠ [] ∧ kw.headI ∈ (['s', 'c', 't', 'l', 'a', 'f'] : List Char) := by
  fin_cases h <;> exact ⟨by decide, by decide⟩

theorem keyword_chars (kw : List Char) (h : kw ∈ keywords) :
    ∀ c ∈ kw, CharSafe c := by
  have hall : ∀ k ∈ keywords, ∀ c ∈ k,
      asciiLower c = c ∧ c ≠ 'p' ∧ c ≠ 'e' := by decide
  intro c hc
  exact hall kw h c hc

theorem scanBinary_none_keyword (kw tail : List Char) (h : kw ∈ keywords) :
    scanBinary (kw ++ tail) = none := by
  obtain ⟨hne, hhead⟩ := keyword_head kw h
  cases hk : kw with
  | nil => exact absurd hk hne
  | cons k0 t0 =>
    rw [hk] at hhead
    simp only [List.headI] at hhead
    apply scanBinary_none_of_scanNum
    refine scanNum_none_head k0 (t0 ++ tail) ?_ ?_ ?_ <;>
      (fin_cases hhead <;> decide)

theorem scanFunc_lit (kw w par sg d1 d2 cpar : List Char)
    (hkw : kw ∈ keywords)
    (hw : ∀ x ∈ w, isWs x = true)
    (hpar : par = [] ∨ par = ['('])
    (hsg : sg = [] ∨ sg = ['-'])
    (hd1 : ∀ c ∈ d1, isAsciiDigit c = true)
    (hd2 : ∀ c ∈ d2, isAsciiDigit c = true)
    (hsh : d2 = [] → d1 ≠ [])
    (hcpar : cpar = [] ∨ cpar = [')']) :
    scanFunc (kw ++ (w ++ (par ++ (litStr sg d1 d2 ++ cpar))))
      = some (kw, litStr sg d1 d2) := by
  have hpairs : ∀ k1 ∈ keywords, ∀ k2 ∈ keywords, k1 ≠ k2 →
      k1.isPrefixOf k2 = false := by decide
  have hfind : keywords.find?
      (fun k => k.isPrefixOf (kw ++ (w ++ (par ++ (litStr sg d1 d2 ++ cpar)))))
        = some kw := by
    apply find?_first_of _ _ _ hkw
    intro k hk hne
    exact key_no_overlap k kw _ (hpairs k hk kw hkw hne) (hpairs kw hkw k hk (Ne.symm hne))
  have hboundary : NumBoundary cpar := by
    rcases hcpar with rfl | rfl
    · exact numBoundary_nil
    · intro x hx
      simp only [List.head?_cons, Option.some.injEq] at hx
      rw [← hx]
      exact ⟨by decide, by decide⟩
  have hnum := scanNum_lit sg d1 d2 cpar hsg hd1 hd2 hsh hboundary
  have hparhead : ∀ x, (par ++ (litStr sg d1 d2 ++ cpar)).head? = some x → isWs x = false := by
    rcases hpar with rfl | rfl
    · intro x hx
      obtain ⟨c0, t0, heq, _⟩ := litStr_head sg d1 d2 hsg hsh
      rw [List.nil_append, heq, List.cons_append, List.head?_cons] at hx
      simp only [Option.some.injEq] at hx
      refine litStr_head_not_ws sg d1 d2 hsg hd1 hsh x ?_
      rw [heq, List.head?_cons, hx]
    · intro x hx
      simp only [List.cons_append, List.head?_cons, Option.some.injEq] at hx
      rw [← hx]
      decide
  have hws := split_run isWs w (par ++ (litStr sg d1 d2 ++ cpar)) hw hparhead
  unfold scanFunc
  rw [hfind]
  simp only [List.drop_left]
  rw [hws.2]
  rcases hpar with rfl | rfl
  · have hnp : ¬((([] : List Char) ++ (litStr sg d1 d2 ++ cpar)).head? = some '(') := by
      obtain ⟨c0, t0, heq, _⟩ := litStr_head sg d1 d2 hsg hsh
      rw [List.nil_append, heq, List.cons_append, List.head?_cons]
      intro hcon
      simp only [Option.some.injEq] at hcon
      exact litStr_head_ne sg d1 d2 hsg hd1 hsh '(' (by decide) (by decide) (by decide)
        (by rw [heq, List.head?_cons, hcon])
    rw [if_neg hnp]
    simp only [List.nil_append]
    rw [hnum]
    rcases hcpar with rfl | rfl <;> simp
  · rw [if_pos (by simp)]
    simp only [List.cons_append, List.tail_cons, List.nil_append]
    rw [hnum]
    rcases hcpar with rfl | rfl <;> simp

theorem classifyInput_func (kw w par sg d1 d2 cpar : List Char)
    (hkw : kw ∈ keywords)
    (hw : ∀ x ∈ w, isWs x = true)
    (hpar : par = [] ∨ par = ['('])
    (hsg : sg = [] ∨ sg = ['-'])
    (hd1 : ∀ c ∈ d1, isAsciiDigit c = true)
    (hd2 : ∀ c ∈ d2, isAsciiDigit c = true)
    (hsh : d2 = [] → d1 ≠ [])
    (hcpar : cpar = [] ∨ cpar = [')']) :
    classifyInput (kw ++ (w ++ (par ++ (litStr sg d1 d2 ++ cpar))))
      = .ok (specFunOp kw (litQ sg d1 d2)) := by
  have hbin := scanBinary_none_keyword kw (w ++ (par ++ (litStr sg d1 d2 ++ cpar))) hkw
  have hfun := scanFunc_lit kw w par sg d1 d2 cpar hkw hw hpar hsg hd1 hd2 hsh hcpar
  have hf := fromStrF64_lit sg d1 d2 hsg hd1 hd2 hsh
  unfold classifyInput
  rw [hbin, hfun]
  simp only [hf]
  fin_cases hkw <;> simp [specFunOp]

/-- C7: for every function-call input — a keyword among `sqrt sin cos tan
log ln abs fact`, optional whitespace, an optional opening parenthesis, a
signed decimal literal and an optional closing parenthesis, the two
parentheses independently optional — `recognize` succeeds and maps the
keyword to its `Operation` variant carrying the parsed number. -/
theorem function_call_recognition (kw w par sg d1 d2 cpar : List Char)
    (hkw : kw ∈ keywords)
    (hw : ∀ x ∈ w, isWs x = true)
    (hpar : par = [] ∨ par = ['('])
    (hsg : sg = [] ∨ sg = ['-'])
    (hd1 : ∀ c ∈ d1, isAsciiDigit c = true)
    (hd2 : ∀ c ∈ d2, isAsciiDigit c = true)
    (hsh : d2 = [] → d1 ≠ [])
    (hcpar : cpar = [] ∨ cpar = [')']) :
    parse_expression (kw ++ (w ++ (par ++ (litStr sg d1 d2 ++ cpar))))
      = .ok (specFunOp kw (litQ sg d1 d2)) := by
  have hsafe : ∀ x ∈ kw ++ (w ++ (par ++ (litStr sg d1 d2 ++ cpar))), CharSafe x := by
    intro x hx
    rcases List.mem_append.1 hx with hx | hx
    · exact keyword_chars kw hkw x hx
    · rcases List.mem_append.1 hx with hx | hx
      · exact charSafe_of_ws x (hw x hx)
      · rcases List.mem_append.1 hx with hx | hx
        · rcases hpar with rfl | rfl
          · simp at hx
          · have hxp : x = '(' := by simpa using hx
            rw [hxp]
            exact charSafe_of_small _ (by decide)
        · rcases List.mem_append.1 hx with hx | hx
          · exact litStr_chars sg d1 d2 hsg hd1 hd2 x hx
          · rcases hcpar with rfl | rfl
            · simp at hx
            · have hxp : x = ')' := by simpa using hx
              rw [hxp]
              exact charSafe_of_small _ (by decide)
  show classifyInput (normalizeInput _) = _
  rw [normalizeInput_id _ hsafe]
  exact classifyInput_func kw w par sg d1 d2 cpar hkw hw hpar hsg hd1 hd2 hsh hcpar

/-- Witness for C7 at the spec's examples `sqrt 16` and `sqrt -4`. -/
theorem function_call_recognition_witness :
    recognize "sqrt 16" = .ok (.SquareRoot 16) ∧ calculate (.SquareRoot 16) = .ok 4 ∧
    recognize "sqrt -4" = .ok (.SquareRoot (-4)) ∧
    calculate (.SquareRoot (-4)) = .error "Cannot calculate square root of negative number!" := by
  have hq16 : litQ [] ['1', '6'] [] = 16 := by
    simp [litQ, show digitsToNat ['1', '6'] = 16 from by decide,
      show digitsToNat [] = 0 from rfl]
  have hq4 : litQ ['-'] ['4'] [] = -4 := by
    simp [litQ, show digitsToNat ['4'] = 4 from by decide,
      show digitsToNat [] = 0 from rfl]
  have h1 := function_call_recognition "sqrt".data [' '] [] [] ['1', '6'] [] []
    (by decide) (by decide) (Or.inl rfl) (Or.inl rfl)
    (by decide) (by decide) (by decide) (Or.inl rfl)
  have h2 := function_call_recognition "sqrt".data [' '] [] ['-'] ['4'] [] []
    (by decide) (by decide) (Or.inl rfl) (Or.inr rfl)
    (by decide) (by decide) (by decide) (Or.inl rfl)
  rw [hq16] at h1
  rw [hq4] at h2
  refine ⟨?_, ?_, ?_, ?_⟩
  · unfold recognize
    rw [show ("sqrt 16").data
        = "sqrt".data ++ ([' '] ++ ([] ++ (litStr [] ['1', '6'] [] ++ [])))
      from by decide]
    rw [h1]
    simp [specFunOp]
  · simp only [calculate]
    rw [if_neg (by norm_num)]
    rw [show ((16 : ℚ) : ℝ) = (4 : ℝ) ^ 2 by norm_num,
      Real.sqrt_sq (by norm_num : (0 : ℝ) ≤ 4)]
  · unfold recognize
    rw [show ("sqrt -4").data
        = "sqrt".data ++ ([' '] ++ ([] ++ (litStr ['-'] ['4'] [] ++ [])))
      from by decide]
    rw [h2]
    simp [specFunOp]
  · simp only [calculate]
    rw [if_pos (by norm_num)]

/-- C8: for every input string on which, after normalization and constant
substitution, neither the binary pattern nor the function pattern matches
the entire string, `recognize` returns the generic invalid-expression
classification error as a failure value. -/
theorem invalid_format_fallback (s : List Char)
    (h1 : scanBinary (normalizeInput s) = none)
    (h2 : scanFunc (normalizeInput s) = none) :
    parse_expression s = .error "Invalid expression format" := by
  show classifyInput (normalizeInput s) = _
  unfold classifyInput
  rw [h1, h2]

/-- Witness for C8 at the spec's examples `banana`, `2 + ` and `sqrt`. -/
theorem invalid_format_fallback_witness :
    recognize "banana" = .error "Invalid expression format" ∧
    recognize "2 + " = .error "Invalid expression format" ∧
    recognize "sqrt" = .error "Invalid expression format" :=
  ⟨invalid_format_fallback "banana".data (by decide) (by decide),
   invalid_format_fallback "2 + ".data (by decide) (by decide),
   invalid_format_fallback "sqrt".data (by decide) (by decide)⟩

/-- C2: among the binary variants only `Divide` can fail: it errors exactly
when the divisor is zero and otherwise returns the quotient; `Add`,
`Subtract`, `Multiply`, `Power` always return `Ok` (`Power` with the
floating-point power idealized by the real power function); and
`recognize "10 / 0"` succeeds while evaluating its result fails with the
division-by-zero error. -/
theorem divide_only_fallible (a b : ℚ) :
    (b = 0 → calculate (.Divide a b) = .error "Division by zero!") ∧
    (b ≠ 0 → calculate (.Divide a b) = .ok ((a : ℝ) / (b : ℝ))) ∧
    calculate (.Add a b) = .ok ((a : ℝ) + (b : ℝ)) ∧
    calculate (.Subtract a b) = .ok ((a : ℝ) - (b : ℝ)) ∧
    calculate (.Multiply a b) = .ok ((a : ℝ) * (b : ℝ)) ∧
    calculate (.Power a b) = .ok (fpow a b) ∧
    recognize "10 / 0" = .ok (.Divide 10 0) ∧
    calculate (.Divide 10 0) = .error "Division by zero!" := by
  refine ⟨fun h => by simp [calculate, h], fun h => by simp [calculate, h],
    rfl, rfl, rfl, rfl, ?_, ?_⟩
  · have hq10 : litQ [] ['1', '0'] [] = 10 := by
      simp [litQ, show digitsToNat ['1', '0'] = 10 from by decide,
        show digitsToNat [] = 0 from rfl]
    have hq0 : litQ [] ['0'] [] = 0 := by
      simp [litQ, show digitsToNat ['0'] = 0 from by decide,
        show digitsToNat [] = 0 from rfl]
    unfold recognize
    show classifyInput (normalizeInput _) = _
    rw [show normalizeInput ("10 / 0").data = ("10 / 0").data from by decide]
    rw [show ("10 / 0").data
        = litStr [] ['1', '0'] [] ++ ([' '] ++ ('/' :: ([' '] ++ litStr [] ['0'] [])))
      from by decide]
    rw [classifyInput_binary [] ['1', '0'] [] [] ['0'] [] [' '] [' '] '/'
      (Or.inl rfl) (by decide) (by decide) (by decide)
      (Or.inl rfl) (by decide) (by decide) (by decide)
      (by decide) (by decide) (by decide)]
    rw [hq10, hq0]
    simp [specBinOp]
  · simp [calculate]

/-- Witness for C2 at concrete divisors. -/
theorem divide_only_fallible_witness :
    calculate (.Divide 1 0) = .error "Division by zero!" ∧
    calculate (.Divide 1 2) = .ok (((1 : ℚ) : ℝ) / ((2 : ℚ) : ℝ)) :=
  ⟨(divide_only_fallible 1 0).1 rfl,
   (divide_only_fallible 1 2).2.1 (by norm_num)⟩

/-- C3: the domain-guarded unary operations error exactly on their domain
violations and otherwise return the specified value: `SquareRoot` fails iff
the argument is negative, `Logarithm` and `NaturalLog` fail iff the
argument is nonpositive, and otherwise they return the square root, the
base-10 logarithm and the natural logarithm respectively. -/
theorem unary_domain_guards (a : ℚ) :
    (a < 0 → calculate (.SquareRoot a) = .error "Cannot calculate square root of negative number!") ∧
    (0 ≤ a → calculate (.SquareRoot a) = .ok (Real.sqrt (a : ℝ))) ∧
    (a ≤ 0 → calculate (.Logarithm a) = .error "Cannot calculate logarithm of non-positive number!") ∧
    (0 < a → calculate (.Logarithm a) = .ok (Real.logb 10 (a : ℝ))) ∧
    (a ≤ 0 → calculate (.NaturalLog a) = .error "Cannot calculate natural logarithm of non-positive number!") ∧
    (0 < a → calculate (.NaturalLog a) = .ok (Real.log (a : ℝ))) := by
  refine ⟨fun h => by simp [calculate, h], fun h => by simp [calculate, not_lt.2 h],
    fun h => by simp [calculate, h], fun h => by simp [calculate, not_le.2 h],
    fun h => by simp [calculate, h], fun h => by simp [calculate, not_le.2 h]⟩

/-- Witness for C3 at arguments `-1` and `1`. -/
theorem unary_domain_guards_witness :
    calculate (.SquareRoot (-1)) = .error "Cannot calculate square root of negative number!" ∧
    calculate (.SquareRoot 1) = .ok (Real.sqrt ((1 : ℚ) : ℝ)) ∧
    calculate (.Logarithm (-1)) = .error "Cannot calculate logarithm of non-positive number!" ∧
    calculate (.Logarithm 1) = .ok (Real.logb 10 ((1 : ℚ) : ℝ)) ∧
    calculate (.NaturalLog (-1)) = .error "Cannot calculate natural logarithm of non-positive number!" ∧
    calculate (.NaturalLog 1) = .ok (Real.log ((1 : ℚ) : ℝ)) :=
  ⟨(unary_domain_guards (-1)).1 (by norm_num),
   (unary_domain_guards 1).2.1 (by norm_num),
   (unary_domain_guards (-1)).2.2.1 (by norm_num),
   (unary_domain_guards 1).2.2.2.1 (by norm_num),
   (unary_domain_guards (-1)).2.2.2.2.1 (by norm_num),
   (unary_domain_guards 1).2.2.2.2.2 (by norm_num)⟩

/-- C4: `Factorial` fails exactly when the argument is negative or has a
nonzero fractional part (for a rational, a denominator other than one);
otherwise it returns the iterated product of `1..=n` where `n` is the
argument truncated to an unsigned 64-bit integer (saturating).  In
particular `fact 5` recognizes and evaluates to `120`, and `Factorial (-1)`
and `Factorial 2.5` both fail. -/
theorem factorial_guard_and_value (a : ℚ) :
    ((a < 0 ∨ a.den ≠ 1) →
      calculate (.Factorial a) = .error "Factorial only defined for non-negative integers!") ∧
    (0 ≤ a → a.den = 1 →
      calculate (.Factorial a) = .ok ((foldFact (min a.num.toNat (2 ^ 64 - 1)) : ℕ) : ℝ)) ∧
    recognize "fact 5" = .ok (.Factorial 5) ∧
    calculate (.Factorial 5) = .ok 120 ∧
    calculate (.Factorial (-1)) = .error "Factorial only defined for non-negative integers!" ∧
    calculate (.Factorial (5 / 2)) = .error "Factorial only defined for non-negative integers!" := by
  refine ⟨fun h => by simp only [calculate]; rw [if_pos h],
    fun h1 h2 => by
      simp only [calculate]
      rw [if_neg (not_or.2 ⟨not_lt.2 h1, not_not_intro h2⟩)],
    ?_, ?_, ?_, ?_⟩
  · have hq5 : litQ [] ['5'] [] = 5 := by
      simp [litQ, show digitsToNat ['5'] = 5 from by decide,
        show digitsToNat [] = 0 from rfl]
    unfold recognize
    show classifyInput (normalizeInput _) = _
    rw [show normalizeInput ("fact 5").data = ("fact 5").data from by decide]
    rw [show ("fact 5").data
        = "fact".data ++ ([' '] ++ ([] ++ (litStr [] ['5'] [] ++ []))) from by decide]
    rw [classifyInput_func "fact".data [' '] [] [] ['5'] [] []
      (by decide) (by decide) (Or.inl rfl) (Or.inl rfl)
      (by decide) (by decide) (by decide) (Or.inl rfl)]
    rw [hq5]
    simp [specFunOp]
  · simp only [calculate]
    rw [if_neg (by
      rw [not_or]
      exact ⟨by norm_num, not_not_intro (by decide)⟩)]
    rw [show min (5 : ℚ).num.toNat (2 ^ 64 - 1) = 5 from by decide,
      show foldFact 5 = 120 from by decide]
    norm_num
  · simp only [calculate]
    rw [if_pos (Or.inl (by norm_num))]
  · simp only [calculate]
    rw [if_pos (Or.inr (by
      intro h
      have := (Rat.den_eq_one_iff (5 / 2 : ℚ)).1 h
      norm_num at this))]

/-- Witness for C4 at arguments `5` (success) and `-1` (failure). -/
theorem factorial_guard_and_value_witness :
    calculate (.Factorial (-1)) = .error "Factorial only defined for non-negative integers!" ∧
    calculate (.Factorial 5)
      = .ok ((foldFact (min (5 : ℚ).num.toNat (2 ^ 64 - 1)) : ℕ) : ℝ) :=
  ⟨(factorial_guard_and_value (-1)).1 (Or.inl (by norm_num)),
   (factorial_guard_and_value 5).2.1 (by norm_num) (by decide)⟩

/-- C5: `Sine`, `Cosine` and `Tangent` never error and return the
corresponding trigonometric function applied to the argument converted
from degrees to radians; in particular `sin 90` recognizes and evaluates
to exactly `1` in the idealized real semantics, confirming the
degree-to-radian conversion. -/
theorem trig_degree_conversion (a : ℚ) :
    calculate (.Sine a) = .ok (Real.sin (toRadians a)) ∧
    calculate (.Cosine a) = .ok (Real.cos (toRadians a)) ∧
    calculate (.Tangent a) = .ok (Real.tan (toRadians a)) ∧
    toRadians a = (a : ℝ) * (Real.pi / 180) ∧
    recognize "sin 90" = .ok (.Sine 90) ∧
    calculate (.Sine 90) = .ok 1 := by
  refine ⟨rfl, rfl, rfl, rfl, ?_, ?_⟩
  · have hq90 : litQ [] ['9', '0'] [] = 90 := by
      simp [litQ, show digitsToNat ['9', '0'] = 90 from by decide,
        show digitsToNat [] = 0 from rfl]
    unfold recognize
    show classifyInput (normalizeInput _) = _
    rw [show normalizeInput ("sin 90").data = ("sin 90").data from by decide]
    rw [show ("sin 90").data
        = "sin".data ++ ([' '] ++ ([] ++ (litStr [] ['9', '0'] [] ++ []))) from by decide]
    rw [classifyInput_func "sin".data [' '] [] [] ['9', '0'] [] []
      (by decide) (by decide) (Or.inl rfl) (Or.inl rfl)
      (by decide) (by decide) (by decide) (Or.inl rfl)]
    rw [hq90]
    simp [specFunOp]
  · simp only [calculate, toRadians]
    rw [show ((90 : ℚ) : ℝ) * (Real.pi / 180) = Real.pi / 2 by push_cast; ring,
      Real.sin_pi_div_two]

/-- C6: `recognize` first folds the input to lowercase, then replaces every
occurrence of `pi` by the literal decimal expansion of π, then every
occurrence of `e` by the literal decimal expansion of Euler's number, all
before any pattern matching; the substitution is naive text replacement,
so `e` also matches inside words containing the letter `e` (demonstrated
on `help`); and `3 * pi` matches the binary pattern after substitution and
evaluates to `3 × π` within floating tolerance. -/
theorem constant_substitution :
    (∀ s : List Char, parse_expression s
        = classifyInput (replaceAll eKey eVal (replaceAll piKey piVal (s.map asciiLower)))) ∧
    replaceAll eKey eVal ("help").data = ("h2.718281828459045lp").data ∧
    normalizeInput ("3 * pi").data = ("3 * 3.141592653589793").data ∧
    recognize "3 * pi" = .ok (.Multiply 3 piRat) ∧
    calculate (.Multiply 3 piRat) = .ok (((3 : ℚ) : ℝ) * (piRat : ℝ)) ∧
    |((3 : ℚ) : ℝ) * (piRat : ℝ) - 3 * Real.pi| < 1 / 1000 := by
  refine ⟨fun s => rfl, by decide, by decide, ?_, rfl, ?_⟩
  · have hq3 : litQ [] ['3'] [] = 3 := by
      simp [litQ, show digitsToNat ['3'] = 3 from by decide,
        show digitsToNat [] = 0 from rfl]
    have hqpi : litQ [] ['3']
        ['1', '4', '1', '5', '9', '2', '6', '5', '3', '5', '8', '9', '7', '9', '3'] = piRat := by
      simp only [litQ, if_pos rfl,
        show digitsToNat ['3'] = 3 from by decide,
        show digitsToNat ['1', '4', '1', '5', '9', '2', '6', '5', '3', '5', '8', '9', '7', '9', '3']
          = 141592653589793 from by decide, piRat]
      norm_num
    unfold recognize
    show classifyInput (normalizeInput _) = _
    rw [show normalizeInput ("3 * pi").data = ("3 * 3.141592653589793").data from by decide]
    rw [show ("3 * 3.141592653589793").data
        = litStr [] ['3'] [] ++ ([' '] ++ ('*' :: ([' '] ++ litStr [] ['3']
            ['1', '4', '1', '5', '9', '2', '6', '5', '3', '5', '8', '9', '7', '9', '3'])))
      from by decide]
    rw [classifyInput_binary [] ['3'] [] [] ['3']
        ['1', '4', '1', '5', '9', '2', '6', '5', '3', '5', '8', '9', '7', '9', '3']
        [' '] [' '] '*'
      (Or.inl rfl) (by decide) (by decide) (by decide)
      (Or.inl rfl) (by decide) (by decide) (by decide)
      (by decide) (by decide) (by decide)]
    rw [hq3, hqpi]
    simp [specBinOp]
  · have h1 : (3.141592 : ℝ) < Real.pi := Real.pi_gt_d6
    have h2 : Real.pi < 3.141593 := Real.pi_lt_d6
    have hq : (piRat : ℝ) = 3141592653589793 / 10 ^ 15 := by
      unfold piRat
      push_cast
      ring
    rw [hq, show ((3 : ℚ) : ℝ) = 3 by norm_num, abs_lt]
    constructor <;> nlinarith [h1, h2]

/-! ### ASCII preservation and scanner inversion, for the error taxonomy -/

theorem mem_of_mem_tail (l : List Char) (c : Char) (h : c ∈ l.tail) : c ∈ l := by
  cases l with
  | nil => simp at h
  | cons a t => exact List.mem_cons_of_mem a h

theorem toNat_ofNat_shift (n : Nat) (h1 : 65 ≤ n) (h2 : n ≤ 90) :
    (Char.ofNat (n + 32)).toNat = n + 32 := by
  interval_cases n <;> decide

theorem asciiLower_ascii (c : Char) (h : c.toNat ≤ 127) : (asciiLower c).toNat ≤ 127 := by
  unfold asciiLower
  split
  · rename_i hcond
    rw [toNat_ofNat_shift c.toNat hcond.1 hcond.2]
    omega
  · exact h

theorem replaceAllFuel_ascii (pat repl : List Char) (hrepl : ∀ c ∈ repl, c.toNat ≤ 127) :
    ∀ (n : Nat) (s : List Char), (∀ c ∈ s, c.toNat ≤ 127) →
      ∀ c ∈ replaceAllFuel pat repl n s, c.toNat ≤ 127 := by
  intro n
  induction n with
  | zero =>
    intro s hs c hc
    exact hs c hc
  | succ n ih =>
    intro s hs c hc
    cases s with
    | nil => simp [replaceAllFuel] at hc
    | cons a rest =>
      rw [replaceAllFuel] at hc
      by_cases hp : pat ≠ [] ∧ pat.isPrefixOf (a :: rest)
      · rw [if_pos hp] at hc
        rcases List.mem_append.1 hc with hc | hc
        · exact hrepl c hc
        · refine ih (rest.drop (pat.length - 1)) ?_ c hc
          intro x hx
          exact hs x (List.mem_cons_of_mem a (List.drop_subset _ _ hx))
      · rw [if_neg hp] at hc
        rcases List.mem_cons.1 hc with rfl | hc
        · exact hs c (by simp)
        · exact ih rest (fun x hx => hs x (List.mem_cons_of_mem a hx)) c hc

theorem normalizeInput_ascii (s : List Char) (h : ∀ c ∈ s, c.toNat ≤ 127) :
    ∀ c ∈ normalizeInput s, c.toNat ≤ 127 := by
  unfold normalizeInput substConstants replaceAll
  apply replaceAllFuel_ascii eKey eVal (by decide)
  apply replaceAllFuel_ascii piKey piVal (by decide)
  intro c hc
  obtain ⟨x, hx, rfl⟩ := List.mem_map.1 hc
  exact asciiLower_ascii x (h x hx)

theorem scanNumCore_shape (s na r : List Char) (h : scanNumCore s = some (na, r)) :
    ∃ d1 d2, (∀ c ∈ d1, isNd c = true) ∧ (∀ c ∈ d2, isNd c = true) ∧
      (d2 = [] → d1 ≠ []) ∧ na = litStr [] d1 d2 ∧
      (∀ c ∈ na, c ∈ s ∨ c = '.') ∧ (∀ c ∈ r, c ∈ s) := by
  unfold scanNumCore at h
  by_cases hdot : (s.dropWhile isNd).head? = some '.'
  · rw [if_pos hdot] at h
    by_cases h2 : (s.dropWhile isNd).tail.takeWhile isNd = []
    · rw [if_pos h2] at h
      by_cases h1 : s.takeWhile isNd = []
      · rw [if_pos h1] at h
        exact absurd h (by simp)
      · rw [if_neg h1] at h
        simp only [Option.some.injEq, Prod.mk.injEq] at h
        refine ⟨s.takeWhile isNd, [], ?_, by simp, fun _ => h1, ?_, ?_, ?_⟩
        · intro c hc
          exact List.mem_takeWhile_imp hc
        · rw [← h.1, litStr_int]
        · intro c hc
          rw [← h.1] at hc
          exact Or.inl (mem_of_mem_takeWhile isNd s c hc)
        · intro c hc
          rw [← h.2] at hc
          exact mem_of_mem_dropWhile isNd s c hc
    · rw [if_neg h2] at h
      simp only [Option.some.injEq, Prod.mk.injEq] at h
      refine ⟨s.takeWhile isNd, (s.dropWhile isNd).tail.takeWhile isNd,
        ?_, ?_, fun hcon => absurd hcon h2, ?_, ?_, ?_⟩
      · intro c hc
        exact List.mem_takeWhile_imp hc
      · intro c hc
        exact List.mem_takeWhile_imp hc
      · rw [← h.1, litStr_frac _ _ h2]
      · intro c hc
        rw [← h.1] at hc
        rcases List.mem_append.1 hc with hc | hc
        · exact Or.inl (mem_of_mem_takeWhile isNd s c hc)
        · rcases List.mem_cons.1 hc with rfl | hc
          · exact Or.inr rfl
          · refine Or.inl (mem_of_mem_dropWhile isNd s c
              (mem_of_mem_tail _ c (mem_of_mem_takeWhile isNd _ c hc)))
      · intro c hc
        rw [← h.2] at hc
        exact mem_of_mem_dropWhile isNd s c
          (mem_of_mem_tail _ c (mem_of_mem_dropWhile isNd _ c hc))
  · rw [if_neg hdot] at h
    by_cases h1 : s.takeWhile isNd = []
    · rw [if_pos h1] at h
      exact absurd h (by simp)
    · rw [if_neg h1] at h
      simp only [Option.some.injEq, Prod.mk.injEq] at h
      refine ⟨s.takeWhile isNd, [], ?_, by simp, fun _ => h1, ?_, ?_, ?_⟩
      · intro c hc
        exact List.mem_takeWhile_imp hc
      · rw [← h.1, litStr_int]
      · intro c hc
        rw [← h.1] at hc
        exact Or.inl (mem_of_mem_takeWhile isNd s c hc)
      · intro c hc
        rw [← h.2] at hc
        exact mem_of_mem_dropWhile isNd s c hc

theorem scanNum_shape (s na r : List Char) (h : scanNum s = some (na, r)) :
    ∃ sg d1 d2, (sg = [] ∨ sg = ['-']) ∧ (∀ c ∈ d1, isNd c = true) ∧
      (∀ c ∈ d2, isNd c = true) ∧ (d2 = [] → d1 ≠ []) ∧ na = litStr sg d1 d2 ∧
      (∀ c ∈ na, c ∈ s ∨ c = '.' ∨ c = '-') ∧ (∀ c ∈ r, c ∈ s) := by
  unfold scanNum at h
  by_cases hm : s.head? = some '-'
  · rw [if_pos hm] at h
    cases hc : scanNumCore s.tail with
    | none =>
      rw [hc] at h
      simp at h
    | some p =>
      obtain ⟨pna, pr⟩ := p
      rw [hc] at h
      simp only [Option.map_some', Option.some.injEq, Prod.mk.injEq] at h
      obtain ⟨d1, d2, hd1, hd2, hsh, hna, hmem, hrest⟩ := scanNumCore_shape s.tail pna pr hc
      refine ⟨['-'], d1, d2, Or.inr rfl, hd1, hd2, hsh, ?_, ?_, ?_⟩
      · rw [← h.1, hna, litStr_neg ['-'] d1 d2 rfl]
      · intro c hcm
        rw [← h.1] at hcm
        rcases List.mem_cons.1 hcm with rfl | hcm
        · exact Or.inr (Or.inr rfl)
        · rcases hmem c hcm with hx | hx
          · exact Or.inl (mem_of_mem_tail s c hx)
          · exact Or.inr (Or.inl hx)
      · intro c hcm
        rw [← h.2] at hcm
        exact mem_of_mem_tail s c (hrest c hcm)
  · rw [if_neg hm] at h
    obtain ⟨d1, d2, hd1, hd2, hsh, hna, hmem, hrest⟩ := scanNumCore_shape s na r h
    exact ⟨[], d1, d2, Or.inl rfl, hd1, hd2, hsh, hna,
      fun c hc => (hmem c hc).imp id Or.inl, hrest⟩

theorem fromStrF64_some_of_ascii (s na r : List Char)
    (hascii : ∀ c ∈ s, c.toNat ≤ 127)
    (h : scanNum s = some (na, r)) : ∃ q, fromStrF64 na = some q := by
  obtain ⟨sg, d1, d2, hsg, hd1, hd2, hsh, hna, hmem, _⟩ := scanNum_shape s na r h
  have hna_ascii : ∀ c ∈ na, c.toNat ≤ 127 := by
    intro c hc
    rcases hmem c hc with hx | hx | hx
    · exact hascii c hx
    · rw [hx]; decide
    · rw [hx]; decide
  have hdig : ∀ c ∈ na, isNd c = true → isAsciiDigit c = true := by
    intro c hc hnd
    simp only [isNd, Bool.or_eq_true] at hnd
    rcases hnd with h' | h'
    · exact h'
    · simp only [Bool.and_eq_true, decide_eq_true_eq] at h'
      have := hna_ascii c hc
      omega
  have hd1' : ∀ c ∈ d1, isAsciiDigit c = true := by
    intro c hc
    refine hdig c ?_ (hd1 c hc)
    rw [hna]
    unfold litStr
    exact List.mem_append.2 (Or.inl (List.mem_append.2 (Or.inr hc)))
  have hd2' : ∀ c ∈ d2, isAsciiDigit c = true := by
    intro c hc
    have h2 : d2 ≠ [] := by
      intro hcon
      rw [hcon] at hc
      simp at hc
    refine hdig c ?_ (hd2 c hc)
    rw [hna]
    unfold litStr
    rw [if_neg h2]
    exact List.mem_append.2 (Or.inr (List.mem_cons_of_mem '.' hc))
  refine ⟨litQ sg d1 d2, ?_⟩
  rw [hna]
  exact fromStrF64_lit sg d1 d2 hsg hd1' hd2' hsh

theorem scanBinary_inv (n na : List Char) (c : Char) (nb : List Char)
    (h : scanBinary n = some (na, c, nb)) :
    (∃ r, scanNum n = some (na, r)) ∧ isOpChar c = true ∧
      scanNum nb = some (nb, []) ∧ (∀ x ∈ nb, x ∈ n) := by
  unfold scanBinary at h
  cases hs : scanNum n with
  | none =>
    rw [hs] at h
    simp at h
  | some p =>
    obtain ⟨pna, pr⟩ := p
    rw [hs] at h
    simp only at h
    cases hd : pr.dropWhile isWs with
    | nil =>
      rw [hd] at h
      simp at h
    | cons c' r3 =>
      rw [hd] at h
      simp only at h
      by_cases hop : isOpChar c'
      · rw [if_pos hop] at h
        by_cases hnb : scanNum (r3.dropWhile isWs) = some (r3.dropWhile isWs, [])
        · rw [if_pos hnb] at h
          simp only [Option.some.injEq, Prod.mk.injEq] at h
          obtain ⟨h1, h2, h3⟩ := h
          obtain ⟨_, _, _, _, _, _, _, _, _, hrest⟩ := scanNum_shape n pna pr hs
          refine ⟨⟨pr, by rw [h1]⟩, by rw [← h2]; exact hop, ?_, ?_⟩
          · rw [← h3]
            exact hnb
          · intro x hx
            rw [← h3] at hx
            have hx2 : x ∈ r3 := mem_of_mem_dropWhile isWs r3 x hx
            have hx3 : x ∈ pr.dropWhile isWs := by
              rw [hd]
              exact List.mem_cons_of_mem c' hx2
            exact hrest x (mem_of_mem_dropWhile isWs pr x hx3)
        · rw [if_neg hnb] at h
          simp at h
      · rw [if_neg hop] at h
        simp at h

theorem scanFunc_inv (n kw nl : List Char) (h : scanFunc n = some (kw, nl)) :
    kw ∈ keywords ∧ ∃ src rest, (∀ x ∈ src, x ∈ n) ∧ scanNum src = some (nl, rest) := by
  unfold scanFunc at h
  cases hf : keywords.find? (fun k => k.isPrefixOf n) with
  | none =>
    rw [hf] at h
    simp at h
  | some k =>
    rw [hf] at h
    simp only at h
    have hkmem : k ∈ keywords := List.mem_of_find?_eq_some hf
    cases hsn : scanNum (if ((n.drop k.length).dropWhile isWs).head? = some '(' then
          ((n.drop k.length).dropWhile isWs).tail
        else (n.drop k.length).dropWhile isWs) with
    | none =>
      rw [hsn] at h
      simp at h
    | some p =>
      obtain ⟨pnl, prest⟩ := p
      rw [hsn] at h
      simp only at h
      by_cases hrest : prest = [] ∨ prest = [')']
      · rw [if_pos hrest] at h
        simp only [Option.some.injEq, Prod.mk.injEq] at h
        obtain ⟨hk, hnl⟩ := h
        refine ⟨by rw [← hk]; exact hkmem, _, prest, ?_, by rw [← hnl]; exact hsn⟩
        intro x hx
        have hx2 : x ∈ (n.drop k.length).dropWhile isWs := by
          by_cases hp : ((n.drop k.length).dropWhile isWs).head? = some '('
          · rw [if_pos hp] at hx
            exact mem_of_mem_tail _ x hx
          · rw [if_neg hp] at hx
            exact hx
        exact List.drop_subset _ _ (mem_of_mem_dropWhile isWs _ x hx2)
      · rw [if_neg hrest] at h
        simp at h

/-- C9 (amended): for ASCII-only inputs every classification error
`recognize` produces is the generic `Invalid expression format` — the
captured number groups always parse as numbers and the operator and
keyword match arms are exhaustive — and for arbitrary inputs the error is
always one of `Invalid expression format`, `Invalid first number`,
`Invalid second number`, `Invalid number`: the `Unknown operator` and
`Unknown function` branches are unreachable for every input.  (The
number-parse errors are reachable, but only through non-ASCII Unicode
decimal digits, which the patterns' `\d` accepts and `f64::from_str`
rejects.) -/
theorem classification_error_taxonomy :
    (∀ (s : List Char) (msg : String), (∀ c ∈ s, c.toNat ≤ 127) →
      parse_expression s = .error msg → msg = "Invalid expression format") ∧
    (∀ (s : List Char) (msg : String), parse_expression s = .error msg →
      msg = "Invalid expression format" ∨ msg = "Invalid first number" ∨
        msg = "Invalid second number" ∨ msg = "Invalid number") := by
  constructor
  · intro s msg hascii herr
    have hn : ∀ c ∈ normalizeInput s, c.toNat ≤ 127 := normalizeInput_ascii s hascii
    unfold parse_expression classifyInput at herr
    cases hbin : scanBinary (normalizeInput s) with
    | some t =>
      obtain ⟨na, c, nb⟩ := t
      simp only [hbin] at herr
      obtain ⟨⟨r, hr⟩, hop, hnb, hnbsub⟩ := scanBinary_inv _ na c nb hbin
      obtain ⟨q1, hq1⟩ := fromStrF64_some_of_ascii _ na r hn hr
      obtain ⟨q2, hq2⟩ := fromStrF64_some_of_ascii nb nb []
        (fun x hx => hn x (hnbsub x hx)) hnb
      simp only [hq1, hq2] at herr
      have hc5 : (((c = '+' ∨ c = '-') ∨ c = '*') ∨ c = '/') ∨ c = '^' := by
        simpa [isOpChar] using hop
      rcases hc5 with (((rfl | rfl) | rfl) | rfl) | rfl <;> simp at herr
    | none =>
      simp only [hbin] at herr
      cases hfun : scanFunc (normalizeInput s) with
      | some t =>
        obtain ⟨kw, nl⟩ := t
        simp only [hfun] at herr
        obtain ⟨hkw, src, rest, hsub, hsrc⟩ := scanFunc_inv _ kw nl hfun
        obtain ⟨q, hq⟩ := fromStrF64_some_of_ascii src nl rest
          (fun x hx => hn x (hsub x hx)) hsrc
        simp only [hq] at herr
        fin_cases hkw <;> simp at herr
      | none =>
        simp only [hfun, Except.error.injEq] at herr
        exact herr.symm
  · intro s msg herr
    unfold parse_expression classifyInput at herr
    cases hbin : scanBinary (normalizeInput s) with
    | some t =>
      obtain ⟨na, c, nb⟩ := t
      simp only [hbin] at herr
      obtain ⟨_, hop, _, _⟩ := scanBinary_inv _ na c nb hbin
      cases hf1 : fromStrF64 na with
      | none =>
        simp only [hf1, Except.error.injEq] at herr
        exact Or.inr (Or.inl herr.symm)
      | some q1 =>
        simp only [hf1] at herr
        cases hf2 : fromStrF64 nb with
        | none =>
          simp only [hf2, Except.error.injEq] at herr
          exact Or.inr (Or.inr (Or.inl herr.symm))
        | some q2 =>
          simp only [hf2] at herr
          have hc5 : (((c = '+' ∨ c = '-') ∨ c = '*') ∨ c = '/') ∨ c = '^' := by
            simpa [isOpChar] using hop
          rcases hc5 with (((rfl | rfl) | rfl) | rfl) | rfl <;> simp at herr
    | none =>
      simp only [hbin] at herr
      cases hfun : scanFunc (normalizeInput s) with
      | some t =>
        obtain ⟨kw, nl⟩ := t
        simp only [hfun] at herr
        obtain ⟨hkw, _, _, _, _⟩ := scanFunc_inv _ kw nl hfun
        cases hq : fromStrF64 nl with
        | none =>
          simp only [hq, Except.error.injEq] at herr
          exact Or.inr (Or.inr (Or.inr herr.symm))
        | some q =>
          simp only [hq] at herr
          fin_cases hkw <;> simp at herr
      | none =>
        simp only [hfun, Except.error.injEq] at herr
        exact Or.inl herr.symm

/-- Witness for C9's amended theorem at the ASCII input `banana`. -/
theorem classification_error_taxonomy_witness :
    (∀ c ∈ ("banana").data, c.toNat ≤ 127) ∧
      "Invalid expression format" = "Invalid expression format" :=
  ⟨by decide, classification_error_taxonomy.1 ("banana").data "Invalid expression format"
    (by decide) (by decide)⟩

/-- C9 as stated is false at a concrete input: the binary pattern's
Unicode-aware `\d` captures the non-ASCII ARABIC-INDIC DIGIT FIVE
(U+0665), which `f64::from_str` rejects, so on the input `٥+1` the
recognizer returns the classification error `Invalid first number` — one
of the errors the claim says it never actually returns. -/
theorem classification_error_counterexample :
    parse_expression [Char.ofNat 1637, '+', '1'] = .error "Invalid first number" := by
  decide
